import Mathlib

/-!
Shallow embedding of `src/app/memory_manager.py` (class `MemoryManager`).

Modelling conventions:
* Python `deque(maxlen=C)` is a `List` whose append drops from the front once
  the length would exceed `C` (`dequeAppend`), exactly deque semantics.
* The external collaborator call `self.llm.generate_text(...)` is modelled by
  an oracle argument `llm : Option String` threaded into the operations that
  may call it: `none` models the call raising an exception (caught by the
  `try/except` in `_trigger_summarization`), `some t` models it returning the
  text `t` (the empty string is a possible successful return value).
* `datetime.now().isoformat()` readings are opaque; each mutating call takes
  the clock reading as an explicit `String` argument.
* Message `metadata` dictionaries are opaque association lists; the code only
  stores and copies them.
* Strings are handled as `List Char` where the code iterates over characters
  (`str.lower`, `str.split`, `str.count`, `in`), with `Char.toLower` for
  Python `str.lower` (the code's data is ASCII role/content text).
-/

/-- A conversation message, as built by `MemoryManager.add_message`
(fields `role`, `content`, `timestamp`, `metadata`). -/
structure Message where
  role : String
  content : String
  timestamp : String
  metadata : List (String × String)
deriving DecidableEq, Repr

/-- The `self.metadata` dictionary of `MemoryManager.__init__`
(keys `created_at`, `message_count`, `summary_count`). -/
structure MMMetadata where
  created_at : String
  message_count : Nat
  summary_count : Nat
deriving DecidableEq, Repr

/-- The mutable state of a `MemoryManager` instance: configuration
(`max_messages`, `summary_threshold`) and conversation storage
(`messages`, `summaries`, `metadata`). The `llm` collaborator is not state
here; its call results enter as oracle arguments. -/
structure MemoryManager where
  max_messages : Nat
  summary_threshold : Nat
  messages : List Message
  summaries : List String
  metadata : MMMetadata
deriving DecidableEq, Repr

/-- Append on a `deque` with `maxlen`: add at the right, and if the length
exceeds `maxlen`, drop from the left down to `maxlen`. -/
def dequeAppend (maxlen : Nat) (l : List Message) (x : Message) : List Message :=
  let l' := l ++ [x]
  if maxlen < l'.length then l'.drop (l'.length - maxlen) else l'

/-- Construction of a `deque` from a list with `maxlen`
(`deque(iterable, maxlen=m)` keeps the last `m` elements). -/
def dequeOfList (maxlen : Nat) (l : List Message) : List Message :=
  l.drop (l.length - maxlen)

/-- `MemoryManager.__init__(llm_service, max_messages, summary_threshold)`:
empty storage, zeroed counters, `created_at` from the clock. -/
def mkMemoryManager (max_messages summary_threshold : Nat) (now : String) : MemoryManager :=
  { max_messages := max_messages
    summary_threshold := summary_threshold
    messages := []
    summaries := []
    metadata := { created_at := now, message_count := 0, summary_count := 0 } }

/-- The message record built at the top of `add_message`:
`{"role": role, "content": content, "timestamp": now, "metadata": metadata or {}}`. -/
def mkMessage (role content : String) (now : String)
    (md : Option (List (String × String))) : Message :=
  { role := role, content := content, timestamp := now, metadata := md.getD [] }

/-- The removal loop at the end of `_trigger_summarization`:
`for _ in range(n): if len(messages) > k: messages.popleft()`
with `k = summary_threshold // 2` and `n = len(messages_to_summarize)`. -/
def removeLoop (k : Nat) : Nat → List Message → List Message
  | 0, ms => ms
  | n + 1, ms => removeLoop k n (if k < ms.length then ms.tail else ms)

/-- `MemoryManager._trigger_summarization(self)`. The batch is the oldest
`len(messages) // 2` messages; an empty batch returns with no effect and no
collaborator call. Otherwise the collaborator is called: on an exception
(`llm = none`) the `except` branch leaves the state untouched; on a returned
text (`llm = some summary`, any string including the empty one) the summary is
appended, `summary_count` is incremented, and the removal loop runs. -/
def trigger_summarization (s : MemoryManager) (llm : Option String) : MemoryManager :=
  let batch := s.messages.take (s.messages.length / 2)
  if batch.isEmpty then s
  else
    match llm with
    | none => s
    | some summary =>
        { s with
          summaries := s.summaries ++ [summary]
          metadata := { s.metadata with summary_count := s.metadata.summary_count + 1 }
          messages := removeLoop (s.summary_threshold / 2) batch.length s.messages }

/-- The unconditional part of `MemoryManager.add_message`: build the message,
append it to the bounded deque, increment `message_count`. -/
def coreAdd (s : MemoryManager) (role content : String)
    (md : Option (List (String × String))) (now : String) : MemoryManager :=
  { s with
    messages := dequeAppend s.max_messages s.messages (mkMessage role content now md)
    metadata := { s.metadata with message_count := s.metadata.message_count + 1 } }

/-- `MemoryManager.add_message(self, role, content, metadata)`: append, count,
then `if len(messages) >= summary_threshold: _trigger_summarization()`. -/
def add_message (s : MemoryManager) (role content : String)
    (md : Option (List (String × String))) (now : String)
    (llm : Option String) : MemoryManager :=
  let s' := coreAdd s role content md now
  if s.summary_threshold ≤ s'.messages.length then trigger_summarization s' llm else s'

/-- `MemoryManager.clear_memory(self)`: empty both stores and reset the
metadata dictionary with a fresh `created_at`. -/
def clear_memory (s : MemoryManager) (now : String) : MemoryManager :=
  { s with
    messages := []
    summaries := []
    metadata := { created_at := now, message_count := 0, summary_count := 0 } }

/-- Python slice `l[:k]` (negative `k` counts from the end). -/
def pySliceTo {α : Type} (k : Int) (l : List α) : List α :=
  if 0 ≤ k then l.take k.toNat else l.take ((l.length : Int) + k).toNat

/-- Python slice `l[k:]` (negative `k` counts from the end). -/
def pySliceFrom {α : Type} (k : Int) (l : List α) : List α :=
  if 0 ≤ k then l.drop k.toNat else l.drop ((l.length : Int) + k).toNat

/-- `MemoryManager.get_messages(self, limit, include_system)`. `limit` is an
optional int tested with `if limit:`, so both `None` and `0` skip the
truncation; a non-zero `limit` keeps `messages[-limit:]`. -/
def get_messages (s : MemoryManager) (limit : Option Int)
    (include_system : Bool) : List Message :=
  let ms := s.messages
  let ms := if include_system then ms else ms.filter (fun m => m.role ≠ "system")
  match limit with
  | none => ms
  | some k => if k = 0 then ms else pySliceFrom (-k) ms

/-- `MemoryManager.get_context_for_llm(self, include_summary, recent_count)`:
an optional leading system entry joining all summaries, then the messages of
`list(messages)[-recent_count:]` that are not system-role, as
`(role, content)` pairs. -/
def get_context_for_llm (s : MemoryManager) (include_summary : Bool)
    (recent_count : Int) : List (String × String) :=
  let context :=
    if include_summary ∧ s.summaries ≠ [] then
      [("system",
        "Previous conversation summary:\n" ++ String.intercalate "\n\n" s.summaries)]
    else []
  let recent := pySliceFrom (-recent_count) s.messages
  context ++ (recent.filter (fun m => m.role ≠ "system")).map (fun m => (m.role, m.content))

/-- Operations a caller can perform on a fresh session (no `import`),
with the oracle outcome of any collaborator call made by an `add`. -/
inductive MMOp where
  | add (role content : String) (md : Option (List (String × String)))
        (now : String) (llm : Option String)
  | clear (now : String)

/-- Run one operation. -/
def runOp (s : MemoryManager) : MMOp → MemoryManager
  | .add role content md now llm => add_message s role content md now llm
  | .clear now => clear_memory s now

/-- Run a sequence of operations left to right. -/
def runOps (s : MemoryManager) (ops : List MMOp) : MemoryManager :=
  ops.foldl runOp s

/-- Python `str.lower()` on the code's ASCII text, as a character list. -/
def pyLowerChars (s : String) : List Char :=
  s.data.map Char.toLower

/-- Helper for `pySplitWs`: accumulate the current (reversed) word while
scanning. -/
def splitWsAux (cur : List Char) : List Char → List (List Char)
  | [] => if cur.isEmpty then [] else [cur.reverse]
  | c :: rest =>
    if c.isWhitespace then
      if cur.isEmpty then splitWsAux [] rest else cur.reverse :: splitWsAux [] rest
    else splitWsAux (c :: cur) rest

/-- Python `str.split()` with no argument: split on whitespace runs, never
producing empty words. -/
def pySplitWs (cs : List Char) : List (List Char) :=
  splitWsAux [] cs

/-- Fuel-driven scan for `pyCount`. Each step consumes at least one character
of the haystack and one unit of fuel, so fuel `hay.length` is always enough. -/
def pyCountAux (needle : List Char) : Nat → List Char → Nat
  | 0, _ => 0
  | _ + 1, [] => 0
  | fuel + 1, c :: rest =>
    if needle.isPrefixOf (c :: rest) then
      1 + pyCountAux needle fuel (rest.drop (needle.length - 1))
    else
      pyCountAux needle fuel rest

/-- Python `hay.count(needle)`: number of non-overlapping occurrences of
`needle` in `hay`, scanning left to right (an empty needle counts
`len(hay) + 1` occurrences, as in Python). -/
def pyCount (needle hay : List Char) : Nat :=
  if needle.isEmpty then hay.length + 1 else pyCountAux needle hay.length hay

/-- Python substring membership `needle in hay`: some tail of `hay` starts
with `needle` (the empty needle is in every string). -/
def pyInStr (needle : List Char) : List Char → Bool
  | [] => needle.isEmpty
  | c :: rest => needle.isPrefixOf (c :: rest) || pyInStr needle rest

/-- The score loop of `search_memory` for one message:
`for word in query_words: if len(word) > 2: if word in content_lower:
score += content_lower.count(word)`. -/
def searchScore (queryWords : List (List Char)) (contentLower : List Char) : Nat :=
  queryWords.foldl
    (fun score w =>
      if 2 < w.length then
        if pyInStr w contentLower then score + pyCount w contentLower else score
      else score)
    0

/-- The `results` list built by the main loop of `search_memory`: for each
non-system message in insertion order, its score, kept only when positive. -/
def searchResults (s : MemoryManager) (query : String) : List (Message × Nat) :=
  s.messages.foldl
    (fun results m =>
      if m.role = "system" then results
      else
        let score := searchScore (pySplitWs (pyLowerChars query)) (pyLowerChars m.content)
        if 0 < score then results ++ [(m, score)] else results)
    []

/-- Stable descending insertion by score: the new element goes in front of the
first element whose score does not exceed it, so earlier elements win ties. -/
def insertScored (x : Message × Nat) : List (Message × Nat) → List (Message × Nat)
  | [] => [x]
  | y :: ys => if y.2 ≤ x.2 then x :: y :: ys else y :: insertScored x ys

/-- Model of `results.sort(key=lambda x: x["score"], reverse=True)`: Python's
sort is stable, and a stable sort under a total preorder is unique, so stable
insertion sort gives the same list. -/
def sortScoredDesc : List (Message × Nat) → List (Message × Nat)
  | [] => []
  | x :: xs => insertScored x (sortScoredDesc xs)

/-- `MemoryManager.search_memory(self, query, top_k)`: score and filter, sort
stably by descending score, return `results[:top_k]`. -/
def search_memory (s : MemoryManager) (query : String) (top_k : Int) :
    List (Message × Nat) :=
  pySliceTo top_k (sortScoredDesc (searchResults s query))

/-- The dictionary returned by `MemoryManager.get_statistics`. The
`utilization` entry, a float formatted as a percentage string, is not
modelled (floating point); no claim mentions it, and `import_history` never
reads statistics. -/
structure MMStats where
  total_messages : Nat
  current_messages : Nat
  summaries_created : Nat
  created_at : String
  usage_messages : Nat
  usage_max_messages : Nat
deriving DecidableEq, Repr

/-- `MemoryManager.get_statistics(self)` (minus the float `utilization`). -/
def get_statistics (s : MemoryManager) : MMStats :=
  { total_messages := s.metadata.message_count
    current_messages := s.messages.length
    summaries_created := s.metadata.summary_count
    created_at := s.metadata.created_at
    usage_messages := s.messages.length
    usage_max_messages := s.max_messages }

/-- A history payload as consumed by `import_history`, which reads each field
with `data.get(key, default)`: an absent dictionary key is `none`. Unknown
extra keys of the Python dict are never read, so they do not appear here. -/
structure HistoryData where
  messages : Option (List Message)
  summaries : Option (List String)
  metadata : Option MMMetadata
  statistics : Option MMStats
deriving DecidableEq, Repr

/-- `MemoryManager.export_history(self)`: a dictionary with all four keys
present. -/
def export_history (s : MemoryManager) : HistoryData :=
  { messages := some s.messages
    summaries := some s.summaries
    metadata := some s.metadata
    statistics := some (get_statistics s) }

/-- `MemoryManager.import_history(self, data)`: each field is read with a
default (`messages`/`summaries` default to empty, `metadata` to the current
metadata); `messages` is rebuilt as a deque bounded by the importing
session's `max_messages`. No field is validated and nothing can fail. -/
def import_history (s : MemoryManager) (data : HistoryData) : MemoryManager :=
  { s with
    messages := dequeOfList s.max_messages (data.messages.getD [])
    summaries := data.summaries.getD []
    metadata := data.metadata.getD s.metadata }

/-! ### Helper lemmas -/

/-- A bounded deque never exceeds its `maxlen` after an append, with no
assumption on the starting list. -/
theorem length_dequeAppend (C : Nat) (l : List Message) (x : Message) :
    (dequeAppend C l x).length ≤ C := by
  simp only [dequeAppend]
  split
  · simp only [List.length_drop]
    omega
  · omega

/-- The removal loop of `_trigger_summarization` drops
`min n (length - k)` elements from the front. -/
theorem removeLoop_eq_drop (k : Nat) :
    ∀ (n : Nat) (ms : List Message),
      removeLoop k n ms = ms.drop (min n (ms.length - k)) := by
  intro n
  induction n with
  | zero => intro ms; simp [removeLoop]
  | succ n ih =>
    intro ms
    rw [removeLoop]
    by_cases h : k < ms.length
    · rw [if_pos h, ih]
      cases ms with
      | nil => simp at h
      | cons a t =>
        simp only [List.tail_cons, List.length_cons]
        have hmin : min (n + 1) (t.length + 1 - k) = min n (t.length - k) + 1 := by
          simp only [List.length_cons] at h
          omega
        rw [hmin, List.drop_succ_cons]
    · rw [if_neg h, ih]
      have h0 : ms.length - k = 0 := by omega
      simp [h0]

/-- Summarization never lengthens the buffer. -/
theorem length_trigger_le (s : MemoryManager) (llm : Option String) :
    (trigger_summarization s llm).messages.length ≤ s.messages.length := by
  cases llm with
  | none =>
    simp only [trigger_summarization]
    split
    · exact le_refl _
    · exact le_refl _
  | some t =>
    simp only [trigger_summarization]
    split
    · exact le_refl _
    · simp only [removeLoop_eq_drop, List.length_drop]
      omega

/-- Summarization does not touch the configuration. -/
theorem config_trigger (s : MemoryManager) (llm : Option String) :
    (trigger_summarization s llm).max_messages = s.max_messages ∧
    (trigger_summarization s llm).summary_threshold = s.summary_threshold := by
  cases llm with
  | none =>
    simp only [trigger_summarization]
    split
    · exact ⟨rfl, rfl⟩
    · exact ⟨rfl, rfl⟩
  | some t =>
    simp only [trigger_summarization]
    split
    · exact ⟨rfl, rfl⟩
    · exact ⟨rfl, rfl⟩

/-- A single operation does not touch the configuration. -/
theorem config_runOp (s : MemoryManager) (op : MMOp) :
    (runOp s op).max_messages = s.max_messages ∧
    (runOp s op).summary_threshold = s.summary_threshold := by
  cases op with
  | add role content md now llm =>
    have h := config_trigger (coreAdd s role content md now) llm
    show (add_message s role content md now llm).max_messages = _ ∧
         (add_message s role content md now llm).summary_threshold = _
    simp only [add_message]
    split
    · exact h
    · exact ⟨rfl, rfl⟩
  | clear now => exact ⟨rfl, rfl⟩

/-- After any `add_message`, the buffer respects the capacity, with no
assumption on the starting state. -/
theorem length_add_message_le (s : MemoryManager) (role content : String)
    (md : Option (List (String × String))) (now : String) (llm : Option String) :
    (add_message s role content md now llm).messages.length ≤ s.max_messages := by
  simp only [add_message]
  split
  · exact le_trans (length_trigger_le _ llm) (length_dequeAppend _ _ _)
  · exact length_dequeAppend _ _ _

/-- Any invariant preserved by every single operation is preserved by every
operation sequence. -/
theorem runOps_preserve (P : MemoryManager → Prop)
    (hP : ∀ s op, P s → P (runOp s op)) :
    ∀ (ops : List MMOp) (s : MemoryManager), P s → P (runOps s ops) := by
  intro ops
  induction ops with
  | nil => intro s hs; exact hs
  | cons op ops ih =>
    intro s hs
    exact ih (runOp s op) (hP s op hs)

/-- The configuration survives every operation sequence. -/
theorem config_runOps (ops : List MMOp) (s : MemoryManager) :
    (runOps s ops).max_messages = s.max_messages ∧
    (runOps s ops).summary_threshold = s.summary_threshold := by
  induction ops generalizing s with
  | nil => exact ⟨rfl, rfl⟩
  | cons op ops ih =>
    have h1 := config_runOp s op
    have h2 := ih (runOp s op)
    exact ⟨h2.1.trans h1.1, h2.2.trans h1.2⟩

/-- The capacity bound holds after every operation sequence. -/
theorem length_runOps_le (ops : List MMOp) (s : MemoryManager)
    (hs : s.messages.length ≤ s.max_messages) :
    (runOps s ops).messages.length ≤ (runOps s ops).max_messages := by
  refine runOps_preserve (fun t => t.messages.length ≤ t.max_messages) ?_ ops s hs
  intro t op ht
  have hc := (config_runOp t op).1
  rw [hc]
  cases op with
  | add role content md now llm => exact length_add_message_le t role content md now llm
  | clear now => simp [runOp, clear_memory]

/-- On a collaborator exception, `_trigger_summarization` is the identity:
the `except` branch only logs. -/
theorem trigger_none_eq (s : MemoryManager) : trigger_summarization s none = s := by
  simp only [trigger_summarization]
  split
  · rfl
  · rfl
/-- A successful collaborator call on a buffer that is both at threshold and
of length at least two strictly shrinks the buffer and counts one summary. -/
theorem trigger_success_shrinks (s : MemoryManager) (txt : String)
    (hT : s.summary_threshold ≤ s.messages.length)
    (h2 : 2 ≤ s.messages.length) :
    (trigger_summarization s (some txt)).messages.length < s.messages.length ∧
    (trigger_summarization s (some txt)).metadata.summary_count
      = s.metadata.summary_count + 1 := by
  constructor
  · simp only [trigger_summarization]
    split
    · rename_i hE
      rw [List.isEmpty_iff, List.take_eq_nil_iff] at hE
      rcases hE with h | h
      · omega
      · simp [h] at h2
    · simp only [removeLoop_eq_drop, List.length_take, List.length_drop]
      have hub : min (min (s.messages.length / 2) s.messages.length)
          (s.messages.length - s.summary_threshold / 2) ≤ s.messages.length / 2 :=
        le_trans inf_le_left inf_le_left
      have hlb : 1 ≤ min (min (s.messages.length / 2) s.messages.length)
          (s.messages.length - s.summary_threshold / 2) := by
        refine le_min (le_min ?_ ?_) ?_ <;> omega
      omega
  · simp only [trigger_summarization]
    split
    · rename_i hE
      rw [List.isEmpty_iff, List.take_eq_nil_iff] at hE
      rcases hE with h | h
      · omega
      · simp [h] at h2
    · rfl

/-! ### C1 -/

/-- C1: for every sequence of `add`/`clear` calls on a session with capacity
`C`, after each call `len(messages) ≤ C`; and when an `add` on a full buffer
would exceed `C`, the append step itself (before any summarization) drops
exactly the single oldest message. -/
theorem mm_C1_capacity_and_fifo :
    ∀ (C T : Nat) (now : String) (ops : List MMOp),
      (runOps (mkMemoryManager C T now) ops).messages.length ≤ C ∧
      ∀ (s : MemoryManager) (role content : String)
        (md : Option (List (String × String))) (ts : String),
        s.messages.length = s.max_messages → 1 ≤ s.max_messages →
        (coreAdd s role content md ts).messages
          = s.messages.tail ++ [mkMessage role content ts md] := by
  intro C T now ops
  constructor
  · have h := length_runOps_le ops (mkMemoryManager C T now) (by simp [mkMemoryManager])
    rw [(config_runOps ops _).1] at h
    exact h
  · intro s role content md ts hlen hC
    show dequeAppend s.max_messages s.messages (mkMessage role content ts md)
        = s.messages.tail ++ [mkMessage role content ts md]
    simp only [dequeAppend]
    rw [if_pos (by simp only [List.length_append, List.length_cons,
      List.length_nil, hlen]; omega)]
    have hdrop : (s.messages ++ [mkMessage role content ts md]).length - s.max_messages
        = 1 := by
      simp only [List.length_append, List.length_cons, List.length_nil, hlen]
      omega
    rw [hdrop]
    cases hm : s.messages with
    | nil => rw [hm] at hlen; simp at hlen; omega
    | cons a t => simp

/-- C1 witness: a concrete three-add run on capacity 2, and a concrete full
buffer where the append drops the oldest entry. -/
theorem mm_C1_capacity_and_fifo_witness :
    (runOps (mkMemoryManager 2 100 "t0")
      [.add "user" "a" none "t1" none, .add "user" "b" none "t2" none,
       .add "user" "c" none "t3" none]).messages.length ≤ 2 ∧
    (coreAdd
        ⟨2, 100, [mkMessage "user" "a" "t1" none, mkMessage "user" "b" "t2" none],
          [], ⟨"t0", 2, 0⟩⟩
        "user" "c" none "t3").messages
      = [mkMessage "user" "b" "t2" none, mkMessage "user" "c" "t3" none] := by
  constructor
  · exact (mm_C1_capacity_and_fifo 2 100 "t0"
      [.add "user" "a" none "t1" none, .add "user" "b" none "t2" none,
       .add "user" "c" none "t3" none]).1
  · exact (mm_C1_capacity_and_fifo 2 100 "t0" []).2
      ⟨2, 100, [mkMessage "user" "a" "t1" none, mkMessage "user" "b" "t2" none],
        [], ⟨"t0", 2, 0⟩⟩
      "user" "c" none "t3" (by decide) (by decide)

/-! ### C9 -/

/-- C9: from a fresh session, for every sequence of `add` and `clear`
operations and regardless of collaborator outcomes, `summary_count` always
equals the length of `summaries`. -/
theorem mm_C9_summary_count_invariant :
    ∀ (C T : Nat) (now : String) (ops : List MMOp),
      (runOps (mkMemoryManager C T now) ops).metadata.summary_count
        = (runOps (mkMemoryManager C T now) ops).summaries.length := by
  intro C T now ops
  refine runOps_preserve
    (fun t => t.metadata.summary_count = t.summaries.length) ?_ ops _
    (by simp [mkMemoryManager])
  intro t op ht
  cases op with
  | add role content md ts llm =>
    show (add_message t role content md ts llm).metadata.summary_count
        = (add_message t role content md ts llm).summaries.length
    simp only [add_message]
    split
    · cases llm with
      | none =>
        rw [trigger_none_eq]
        exact ht
      | some txt =>
        simp only [trigger_summarization]
        split
        · exact ht
        · show t.metadata.summary_count + 1 = (t.summaries ++ [txt]).length
          simp [ht]
    · exact ht
  | clear ts =>
    show (0 : Nat) = ([] : List String).length
    simp

/-! ### C3 -/

/-- The operation trace of the C3 counterexample: with threshold 4, three adds
whose triggers never fire, then an add whose triggered pass receives the
empty string from the collaborator. -/
def c3Ops : List MMOp :=
  [.add "user" "m1" none "t1" none, .add "user" "m2" none "t2" none,
   .add "user" "m3" none "t3" none, .add "user" "m4" none "t4" (some "")]

/-- The session state after the C3 trace. -/
def c3State : MemoryManager := runOps (mkMemoryManager 100 4 "t0") c3Ops

/-- C3 counterexample: a compaction pass in which the collaborator returns
empty text ("no usable text") nevertheless appends the empty summary,
increments `summaryCount` from 0 to 1, and removes two of the four buffered
messages — the code treats an empty return as success, only an exception
takes the no-mutation path. -/
theorem mm_C3_counterexample :
    (runOps (mkMemoryManager 100 4 "t0") (c3Ops.take 3)).messages.length = 3 ∧
    (runOps (mkMemoryManager 100 4 "t0") (c3Ops.take 3)).metadata.summary_count = 0 ∧
    c3State.summaries = [""] ∧
    c3State.metadata.summary_count = 1 ∧
    c3State.messages.length = 2 := by
  refine ⟨rfl, rfl, ?_, rfl, rfl⟩
  rfl

/-- C3 (amended): when the collaborator call raises, the pass appends no
summary, removes no messages, leaves `summary_count` unchanged and returns
normally — the state is exactly the pre-pass state. An empty-string return,
however, is treated as an ordinary success. -/
theorem mm_C3_amended_exception_is_atomic :
    ∀ (s : MemoryManager), trigger_summarization s none = s := by
  intro s
  exact trigger_none_eq s

/-! ### C4 -/

/-- C4: whenever an `add` brings the buffer to at least `summary_threshold`,
that `add` is exactly one summarization pass applied to the post-append
state; when the resulting buffer has at least two messages (in particular
whenever `summary_threshold ≥ 2`), a successful pass strictly shrinks the
buffer and increments `summary_count` by exactly one, and a collaborator
failure leaves `summary_count` unchanged. -/
theorem mm_C4_compaction_pass :
    ∀ (s : MemoryManager) (role content : String)
      (md : Option (List (String × String))) (now : String),
      s.summary_threshold ≤ (coreAdd s role content md now).messages.length →
      (∀ llm, add_message s role content md now llm
          = trigger_summarization (coreAdd s role content md now) llm) ∧
      (2 ≤ (coreAdd s role content md now).messages.length →
        ∀ txt,
          (trigger_summarization (coreAdd s role content md now) (some txt)).messages.length
              < (coreAdd s role content md now).messages.length ∧
          (trigger_summarization (coreAdd s role content md now) (some txt)).metadata.summary_count
              = (coreAdd s role content md now).metadata.summary_count + 1) ∧
      (trigger_summarization (coreAdd s role content md now) none).metadata.summary_count
          = (coreAdd s role content md now).metadata.summary_count := by
  intro s role content md now hT
  refine ⟨?_, ?_, ?_⟩
  · intro llm
    simp only [add_message]
    rw [if_pos hT]
  · intro h2 txt
    exact trigger_success_shrinks (coreAdd s role content md now) txt hT h2
  · rw [trigger_none_eq]

/-- C4 witness: threshold 4 and a three-message buffer; the fourth add meets
the threshold, a successful pass shrinks 4 to 2 and counts one summary, a
failing pass counts none. -/
theorem mm_C4_compaction_pass_witness :
    (add_message
        ⟨100, 4, [mkMessage "user" "m1" "t1" none, mkMessage "user" "m2" "t2" none,
          mkMessage "user" "m3" "t3" none], [], ⟨"t0", 3, 0⟩⟩
        "user" "m4" none "t4" (some "sum")
      = trigger_summarization
          (coreAdd
            ⟨100, 4, [mkMessage "user" "m1" "t1" none, mkMessage "user" "m2" "t2" none,
              mkMessage "user" "m3" "t3" none], [], ⟨"t0", 3, 0⟩⟩
            "user" "m4" none "t4") (some "sum")) ∧
    (trigger_summarization
        (coreAdd
          ⟨100, 4, [mkMessage "user" "m1" "t1" none, mkMessage "user" "m2" "t2" none,
            mkMessage "user" "m3" "t3" none], [], ⟨"t0", 3, 0⟩⟩
          "user" "m4" none "t4") (some "sum")).messages.length
      < (coreAdd
          ⟨100, 4, [mkMessage "user" "m1" "t1" none, mkMessage "user" "m2" "t2" none,
            mkMessage "user" "m3" "t3" none], [], ⟨"t0", 3, 0⟩⟩
          "user" "m4" none "t4").messages.length ∧
    (trigger_summarization
        (coreAdd
          ⟨100, 4, [mkMessage "user" "m1" "t1" none, mkMessage "user" "m2" "t2" none,
            mkMessage "user" "m3" "t3" none], [], ⟨"t0", 3, 0⟩⟩
          "user" "m4" none "t4") (some "sum")).metadata.summary_count
      = (coreAdd
          ⟨100, 4, [mkMessage "user" "m1" "t1" none, mkMessage "user" "m2" "t2" none,
            mkMessage "user" "m3" "t3" none], [], ⟨"t0", 3, 0⟩⟩
          "user" "m4" none "t4").metadata.summary_count + 1 ∧
    (trigger_summarization
        (coreAdd
          ⟨100, 4, [mkMessage "user" "m1" "t1" none, mkMessage "user" "m2" "t2" none,
            mkMessage "user" "m3" "t3" none], [], ⟨"t0", 3, 0⟩⟩
          "user" "m4" none "t4") none).metadata.summary_count
      = (coreAdd
          ⟨100, 4, [mkMessage "user" "m1" "t1" none, mkMessage "user" "m2" "t2" none,
            mkMessage "user" "m3" "t3" none], [], ⟨"t0", 3, 0⟩⟩
          "user" "m4" none "t4").metadata.summary_count := by
  have h := mm_C4_compaction_pass
    ⟨100, 4, [mkMessage "user" "m1" "t1" none, mkMessage "user" "m2" "t2" none,
      mkMessage "user" "m3" "t3" none], [], ⟨"t0", 3, 0⟩⟩
    "user" "m4" none "t4" (by decide)
  exact ⟨h.1 (some "sum"), (h.2.1 (by decide) "sum").1, (h.2.1 (by decide) "sum").2, h.2.2⟩

/-! ### C2 -/

/-- Five adds under threshold 4 whose triggered passes all fail: the buffer
grows to five messages. -/
def c2FailOps : List MMOp :=
  [.add "user" "m1" none "t1" none, .add "user" "m2" none "t2" none,
   .add "user" "m3" none "t3" none, .add "user" "m4" none "t4" none,
   .add "user" "m5" none "t5" none]

/-- The state reached by `c2FailOps` from a fresh threshold-4 session. -/
def c2Base : MemoryManager := runOps (mkMemoryManager 100 4 "t0") c2FailOps

/-- The pre-pass state of the sixth add: six buffered messages. -/
def c2Pre : MemoryManager := coreAdd c2Base "user" "m6" none "t6"

/-- C2 counterexample: on the successful pass triggered by the sixth add, the
batch has `6 // 2 = 3` messages and the pass removes all three — strictly
more than the claimed bound `min(batchSize, summaryThreshold // 2) =
min(3, 2) = 2`. -/
theorem mm_C2_counterexample :
    c2Pre.summary_threshold ≤ c2Pre.messages.length ∧
    c2Pre.messages.length = 6 ∧
    add_message c2Base "user" "m6" none "t6" (some "sum")
      = trigger_summarization c2Pre (some "sum") ∧
    (trigger_summarization c2Pre (some "sum")).messages.length = 3 ∧
    ¬ (c2Pre.messages.length - (trigger_summarization c2Pre (some "sum")).messages.length
        ≤ min (c2Pre.messages.length / 2) (c2Pre.summary_threshold / 2)) := by
  refine ⟨by decide, by decide, rfl, by decide, by decide⟩

/-- C2 (amended): a successful pass with a non-empty batch removes exactly
`min(batchSize, len - summaryThreshold // 2)` messages from the front: never
more than `batchSize`, and never below `summaryThreshold // 2` remaining
messages — but when the buffer has grown past the threshold (after earlier
failed passes) the removal can exceed `summaryThreshold // 2`. -/
theorem mm_C2_amended_removal_bound :
    ∀ (s : MemoryManager) (txt : String),
      s.messages.length / 2 ≠ 0 →
      (trigger_summarization s (some txt)).messages
          = s.messages.drop (min (s.messages.length / 2)
              (s.messages.length - s.summary_threshold / 2)) ∧
      s.messages.length - (trigger_summarization s (some txt)).messages.length
          ≤ s.messages.length / 2 ∧
      min s.messages.length (s.summary_threshold / 2)
          ≤ (trigger_summarization s (some txt)).messages.length := by
  intro s txt hbatch
  have hmain : (trigger_summarization s (some txt)).messages
      = s.messages.drop (min (s.messages.length / 2)
          (s.messages.length - s.summary_threshold / 2)) := by
    simp only [trigger_summarization]
    split
    · rename_i hE
      rw [List.isEmpty_iff, List.take_eq_nil_iff] at hE
      rcases hE with h | h
      · exact absurd h hbatch
      · simp [h]
    · show removeLoop (s.summary_threshold / 2)
          (s.messages.take (s.messages.length / 2)).length s.messages = _
      rw [removeLoop_eq_drop, List.length_take]
      congr 1
      have : min (s.messages.length / 2) s.messages.length
          = s.messages.length / 2 := by
        apply min_eq_left
        omega
      rw [this]
  refine ⟨hmain, ?_, ?_⟩
  · rw [hmain, List.length_drop]
    have h1 : min (s.messages.length / 2)
        (s.messages.length - s.summary_threshold / 2) ≤ s.messages.length / 2 :=
      inf_le_left
    omega
  · rw [hmain, List.length_drop]
    have h1 : min (s.messages.length / 2)
        (s.messages.length - s.summary_threshold / 2)
        ≤ s.messages.length - s.summary_threshold / 2 :=
      inf_le_right
    have h2 : min s.messages.length (s.summary_threshold / 2)
        ≤ s.summary_threshold / 2 := inf_le_right
    have h3 : min s.messages.length (s.summary_threshold / 2)
        ≤ s.messages.length := inf_le_left
    omega

/-- C2 amended witness: the concrete pass of the C2 counterexample satisfies
the amended bounds: it removes three of six messages, at most the batch size,
leaving at least `4 // 2 = 2`. -/
theorem mm_C2_amended_removal_bound_witness :
    (trigger_summarization c2Pre (some "sum")).messages
        = c2Pre.messages.drop (min (c2Pre.messages.length / 2)
            (c2Pre.messages.length - c2Pre.summary_threshold / 2)) ∧
    c2Pre.messages.length - (trigger_summarization c2Pre (some "sum")).messages.length
        ≤ c2Pre.messages.length / 2 ∧
    min c2Pre.messages.length (c2Pre.summary_threshold / 2)
        ≤ (trigger_summarization c2Pre (some "sum")).messages.length :=
  mm_C2_amended_removal_bound c2Pre "sum" (by decide)

/-! ### C5 -/

/-- C5: `export_history` followed immediately by `import_history` into a
fresh session of the same capacity reproduces the exporting session's
messages, summaries and counters exactly. -/
theorem mm_C5_export_import_roundtrip :
    ∀ (s : MemoryManager) (now : String),
      s.messages.length ≤ s.max_messages →
      (import_history (mkMemoryManager s.max_messages s.summary_threshold now)
          (export_history s)).messages = s.messages ∧
      (import_history (mkMemoryManager s.max_messages s.summary_threshold now)
          (export_history s)).summaries = s.summaries ∧
      (import_history (mkMemoryManager s.max_messages s.summary_threshold now)
          (export_history s)).metadata = s.metadata := by
  intro s now h
  refine ⟨?_, rfl, rfl⟩
  show dequeOfList s.max_messages s.messages = s.messages
  simp only [dequeOfList]
  have h0 : s.messages.length - s.max_messages = 0 := by omega
  rw [h0, List.drop_zero]

/-- C5 witness: a concrete session with one message and one summary
round-trips into a fresh capacity-10 session. -/
theorem mm_C5_export_import_roundtrip_witness :
    (import_history (mkMemoryManager 10 20 "fresh")
        (export_history ⟨10, 20, [mkMessage "user" "hi" "t1" none], ["s1"],
          ⟨"t0", 1, 1⟩⟩)).messages
      = [mkMessage "user" "hi" "t1" none] ∧
    (import_history (mkMemoryManager 10 20 "fresh")
        (export_history ⟨10, 20, [mkMessage "user" "hi" "t1" none], ["s1"],
          ⟨"t0", 1, 1⟩⟩)).summaries = ["s1"] ∧
    (import_history (mkMemoryManager 10 20 "fresh")
        (export_history ⟨10, 20, [mkMessage "user" "hi" "t1" none], ["s1"],
          ⟨"t0", 1, 1⟩⟩)).metadata = ⟨"t0", 1, 1⟩ :=
  mm_C5_export_import_roundtrip
    ⟨10, 20, [mkMessage "user" "hi" "t1" none], ["s1"], ⟨"t0", 1, 1⟩⟩
    "fresh" (by decide)

/-! ### C6 -/

/-- A concrete session with one message and one summary. -/
def c6State : MemoryManager :=
  ⟨10, 20, [mkMessage "user" "hello" "t1" none], ["s1"], ⟨"t0", 1, 1⟩⟩

/-- The import payload with every required field absent. -/
def c6EmptyPayload : HistoryData := ⟨none, none, none, none⟩

/-- C6 counterexample: importing a payload that is missing every required
field raises no validation error (`import_history` always returns a state)
and does not leave the session unchanged — `messages` and `summaries` are
silently replaced by empty defaults. -/
theorem mm_C6_counterexample :
    (import_history c6State c6EmptyPayload).messages = [] ∧
    (import_history c6State c6EmptyPayload).summaries = [] ∧
    import_history c6State c6EmptyPayload ≠ c6State := by
  refine ⟨rfl, rfl, ?_⟩
  decide

/-- C6 (amended): `import_history` never fails; an absent `messages` field
defaults to an empty buffer, an absent `summaries` field to an empty list,
and an absent `metadata` field keeps the previous metadata, so a payload
with missing required fields changes the state rather than being rejected;
unknown extra fields are never read and cause no failure. -/
theorem mm_C6_amended_import_defaults :
    ∀ (s : MemoryManager) (d : HistoryData),
      (d.messages = none → (import_history s d).messages = []) ∧
      (d.summaries = none → (import_history s d).summaries = []) ∧
      (d.metadata = none → (import_history s d).metadata = s.metadata) ∧
      (d.messages = some s.messages → s.messages.length ≤ s.max_messages →
        (import_history s d).messages = s.messages) := by
  intro s d
  refine ⟨?_, ?_, ?_, ?_⟩
  · intro h
    simp [import_history, h, dequeOfList]
  · intro h
    simp [import_history, h]
  · intro h
    simp [import_history, h]
  · intro h hlen
    simp only [import_history, h, Option.getD_some, dequeOfList]
    have h0 : s.messages.length - s.max_messages = 0 := by omega
    rw [h0, List.drop_zero]

/-- C6 amended witness: the empty payload applied to the concrete session. -/
theorem mm_C6_amended_import_defaults_witness :
    (import_history c6State c6EmptyPayload).messages = [] ∧
    (import_history c6State c6EmptyPayload).summaries = [] ∧
    (import_history c6State c6EmptyPayload).metadata = c6State.metadata := by
  have h := mm_C6_amended_import_defaults c6State c6EmptyPayload
  exact ⟨h.1 rfl, h.2.1 rfl, h.2.2.1 rfl⟩

/-! ### C10 -/

/-- C10: `get_messages` with `limit = 0` returns all retained non-system
messages, exactly like `limit = None` (Python `if limit:` treats 0 as
falsy); and `get_context_for_llm` with `recent_count = 0` appends every
non-system stored message (`list(messages)[-0:]` is the whole list). -/
theorem mm_C10_zero_limit_is_no_limit :
    ∀ (s : MemoryManager) (include_summary : Bool),
      get_messages s (some 0) false
        = s.messages.filter (fun m => m.role ≠ "system") ∧
      get_messages s (some 0) false = get_messages s none false ∧
      get_context_for_llm s include_summary 0
        = (if include_summary ∧ s.summaries ≠ [] then
            [("system", "Previous conversation summary:\n"
                ++ String.intercalate "\n\n" s.summaries)]
          else [])
          ++ (s.messages.filter (fun m => m.role ≠ "system")).map
              (fun m => (m.role, m.content)) := by
  intro s include_summary
  refine ⟨rfl, rfl, rfl⟩

/-! ### Search lemmas (C7, C8) -/

/-- The empty needle is a substring of every string. -/
theorem pyInStr_nil (hay : List Char) : pyInStr [] hay = true := by
  cases hay with
  | nil => rfl
  | cons c rest => simp [pyInStr, List.isPrefixOf]

/-- If the needle does not occur as a substring, the occurrence count is 0. -/
theorem pyCountAux_eq_zero (w : List Char) :
    ∀ (fuel : Nat) (hay : List Char),
      pyInStr w hay = false → pyCountAux w fuel hay = 0 := by
  intro fuel
  induction fuel with
  | zero => intro hay h; rfl
  | succ fuel ih =>
    intro hay h
    cases hay with
    | nil => rfl
    | cons c rest =>
      simp only [pyInStr, Bool.or_eq_false_iff] at h
      simp only [pyCountAux, h.1, Bool.false_eq_true, if_false]
      exact ih rest h.2

/-- If the needle does not occur as a substring, `pyCount` is 0. -/
theorem pyCount_eq_zero (w hay : List Char) (h : pyInStr w hay = false) :
    pyCount w hay = 0 := by
  simp only [pyCount]
  split
  · rename_i hE
    rw [List.isEmpty_iff] at hE
    rw [hE, pyInStr_nil] at h
    exact absurd h (by simp)
  · exact pyCountAux_eq_zero w hay.length hay h

/-- The membership guard in the score loop is redundant: the score is the
plain sum of the substring counts of the long-enough query words. -/
theorem searchScore_eq_sum (qw : List (List Char)) (c : List Char) :
    searchScore qw c
      = ((qw.filter (fun w => 2 < w.length)).map (fun w => pyCount w c)).sum := by
  have haux : ∀ (ws : List (List Char)) (acc : Nat),
      ws.foldl
        (fun score w =>
          if 2 < w.length then
            if pyInStr w c then score + pyCount w c else score
          else score) acc
      = acc + ((ws.filter (fun w => 2 < w.length)).map (fun w => pyCount w c)).sum := by
    intro ws
    induction ws with
    | nil => intro acc; simp
    | cons w rest ih =>
      intro acc
      rw [List.foldl_cons]
      by_cases hlen : 2 < w.length
      · rw [if_pos hlen, List.filter_cons_of_pos (by simpa using hlen),
          List.map_cons, List.sum_cons]
        by_cases hin : pyInStr w c = true
        · rw [if_pos hin, ih]
          omega
        · rw [if_neg hin, ih, pyCount_eq_zero w c (by simpa using hin)]
          omega
      · rw [if_neg hlen, List.filter_cons_of_neg (by simpa using hlen)]
        exact ih acc
  exact (haux qw 0).trans (Nat.zero_add _)

/-- The result-building loop of `search_memory`, rephrased: the non-system
messages, in insertion order, paired with their scores, keeping positives. -/
theorem searchResults_eq_filterMap (s : MemoryManager) (q : String) :
    searchResults s q
      = (s.messages.filter (fun m => m.role ≠ "system")).filterMap
          (fun m =>
            let sc := searchScore (pySplitWs (pyLowerChars q)) (pyLowerChars m.content)
            if 0 < sc then some (m, sc) else none) := by
  have haux : ∀ (ms : List Message) (acc : List (Message × Nat)),
      ms.foldl
        (fun results m =>
          if m.role = "system" then results
          else
            let score := searchScore (pySplitWs (pyLowerChars q)) (pyLowerChars m.content)
            if 0 < score then results ++ [(m, score)] else results) acc
      = acc ++ (ms.filter (fun m => m.role ≠ "system")).filterMap
          (fun m =>
            let sc := searchScore (pySplitWs (pyLowerChars q)) (pyLowerChars m.content)
            if 0 < sc then some (m, sc) else none) := by
    intro ms
    induction ms with
    | nil => intro acc; simp
    | cons m rest ih =>
      intro acc
      rw [List.foldl_cons]
      by_cases hsys : m.role = "system"
      · rw [if_pos hsys, List.filter_cons_of_neg (by simp [hsys])]
        exact ih acc
      · rw [if_neg hsys, List.filter_cons_of_pos (by simp [hsys]),
          List.filterMap_cons]
        by_cases hsc : 0 < searchScore (pySplitWs (pyLowerChars q)) (pyLowerChars m.content)
        · simp only [hsc, if_true]
          rw [ih, List.append_assoc]
          rfl
        · simp only [hsc, if_false]
          exact ih acc
  exact haux s.messages []

/-- Membership through stable insertion. -/
theorem mem_insertScored (x y : Message × Nat) (l : List (Message × Nat)) :
    y ∈ insertScored x l ↔ y = x ∨ y ∈ l := by
  induction l with
  | nil => simp [insertScored]
  | cons z zs ih =>
    simp only [insertScored]
    split
    · simp
    · simp only [List.mem_cons, ih]
      tauto

/-- Membership through the stable sort. -/
theorem mem_sortScoredDesc (y : Message × Nat) (l : List (Message × Nat)) :
    y ∈ sortScoredDesc l ↔ y ∈ l := by
  induction l with
  | nil => simp [sortScoredDesc]
  | cons x xs ih =>
    simp only [sortScoredDesc, mem_insertScored, ih, List.mem_cons]

/-- Stable insertion preserves the descending-score pairwise order. -/
theorem pairwise_insertScored (x : Message × Nat) (l : List (Message × Nat))
    (h : l.Pairwise (fun a b => b.2 ≤ a.2)) :
    (insertScored x l).Pairwise (fun a b => b.2 ≤ a.2) := by
  induction l with
  | nil => simp [insertScored]
  | cons y ys ih =>
    simp only [insertScored]
    rw [List.pairwise_cons] at h
    split
    · rename_i hle
      rw [List.pairwise_cons]
      constructor
      · intro z hz
        rcases List.mem_cons.mp hz with hz | hz
        · rw [hz]; exact hle
        · exact le_trans (h.1 z hz) hle
      · exact List.pairwise_cons.mpr h
    · rename_i hgt
      rw [List.pairwise_cons]
      constructor
      · intro z hz
        rcases (mem_insertScored x z ys).mp hz with hz | hz
        · rw [hz]; omega
        · exact h.1 z hz
      · exact ih h.2

/-- The stable sort produces a descending-score list. -/
theorem pairwise_sortScoredDesc (l : List (Message × Nat)) :
    (sortScoredDesc l).Pairwise (fun a b => b.2 ≤ a.2) := by
  induction l with
  | nil => simp [sortScoredDesc]
  | cons x xs ih => exact pairwise_insertScored x (sortScoredDesc xs) ih

/-- Stability of the insertion step: the sublist of entries with any fixed
score `v` gains `x` at its front when `x` scores `v`, and is untouched
otherwise. -/
theorem filter_insertScored (x : Message × Nat) (l : List (Message × Nat)) (v : Nat) :
    (insertScored x l).filter (fun y => y.2 = v)
      = if x.2 = v then x :: l.filter (fun y => y.2 = v)
        else l.filter (fun y => y.2 = v) := by
  induction l with
  | nil =>
    simp only [insertScored]
    by_cases hx : x.2 = v
    · rw [if_pos hx, List.filter_cons_of_pos (by simpa using hx)]
    · rw [if_neg hx, List.filter_cons_of_neg (by simpa using hx)]
  | cons y ys ih =>
    simp only [insertScored]
    split
    · rename_i hle
      by_cases hx : x.2 = v
      · rw [if_pos hx, List.filter_cons_of_pos (by simpa using hx)]
      · rw [if_neg hx, List.filter_cons_of_neg (by simpa using hx)]
    · rename_i hgt
      by_cases hy : y.2 = v
      · rw [List.filter_cons_of_pos (by simpa using hy), ih,
          List.filter_cons_of_pos (by simpa using hy)]
        by_cases hx : x.2 = v
        · omega
        · rw [if_neg hx, if_neg hx]
      · rw [List.filter_cons_of_neg (by simpa using hy), ih,
          List.filter_cons_of_neg (by simpa using hy)]

/-- Stability of the sort: for every score value, the entries carrying that
score appear in the sorted list exactly as they appear in the input. -/
theorem filter_sortScoredDesc (l : List (Message × Nat)) (v : Nat) :
    (sortScoredDesc l).filter (fun y => y.2 = v)
      = l.filter (fun y => y.2 = v) := by
  induction l with
  | nil => rfl
  | cons x xs ih =>
    simp only [sortScoredDesc]
    rw [filter_insertScored]
    by_cases hx : x.2 = v
    · rw [if_pos hx, ih, List.filter_cons_of_pos (by simpa using hx)]
    · rw [if_neg hx, ih, List.filter_cons_of_neg (by simpa using hx)]

/-- Filtering a prefix of a list yields a prefix of the filtered list, in
take form. -/
theorem filter_take_eq_take_filter {α : Type} (p : α → Bool) :
    ∀ (l : List α) (N : Nat), ∃ n, (l.take N).filter p = (l.filter p).take n := by
  intro l
  induction l with
  | nil => intro N; exact ⟨0, by simp⟩
  | cons c rest ih =>
    intro N
    cases N with
    | zero => exact ⟨0, by simp⟩
    | succ N =>
      obtain ⟨n, hn⟩ := ih N
      by_cases hc : p c = true
      · refine ⟨n + 1, ?_⟩
        rw [List.take_succ_cons, List.filter_cons_of_pos hc,
          List.filter_cons_of_pos hc, List.take_succ_cons, hn]
      · refine ⟨n, ?_⟩
        rw [List.take_succ_cons, List.filter_cons_of_neg (by simpa using hc),
          List.filter_cons_of_neg (by simpa using hc), hn]

/-- Both branches of `l[:k]` are a `take` of `l`. -/
theorem pySliceTo_eq_take {α : Type} (k : Int) (l : List α) :
    pySliceTo k l
      = l.take (if 0 ≤ k then k.toNat else ((l.length : Int) + k).toNat) := by
  simp only [pySliceTo]
  split
  · rfl
  · rfl

/-! ### C7 -/

/-- The score formula as the specification words it: the sum, over the
lowercased whitespace-split query tokens of length strictly greater than 2,
of the number of substring occurrences of the token in the lowercased
content. Stated separately from the code's loop so the two can be compared. -/
def searchScoreSpec (query content : String) : Nat :=
  (((pySplitWs (pyLowerChars query)).filter (fun w => 2 < w.length)).map
    (fun w => pyCount w (pyLowerChars content))).sum

/-- C7: the candidate list of `search_memory` is exactly the non-system
messages scored by the specification's token-sum formula, keeping only
strictly positive scores; consequently every returned entry is a stored
non-system message whose reported score is the formula's value and is
positive. -/
theorem mm_C7_search_scoring :
    ∀ (s : MemoryManager) (q : String),
      searchResults s q
        = (s.messages.filter (fun m => m.role ≠ "system")).filterMap
            (fun m => if 0 < searchScoreSpec q m.content
              then some (m, searchScoreSpec q m.content) else none) ∧
      ∀ (k : Int) (x : Message × Nat), x ∈ search_memory s q k →
        x.1 ∈ s.messages ∧ x.1.role ≠ "system" ∧ 0 < x.2 ∧
        x.2 = searchScoreSpec q x.1.content := by
  intro s q
  have hres : searchResults s q
      = (s.messages.filter (fun m => m.role ≠ "system")).filterMap
          (fun m => if 0 < searchScoreSpec q m.content
            then some (m, searchScoreSpec q m.content) else none) := by
    rw [searchResults_eq_filterMap]
    simp only [searchScore_eq_sum, searchScoreSpec]
  refine ⟨hres, ?_⟩
  intro k x hx
  have hx1 : x ∈ sortScoredDesc (searchResults s q) := by
    rw [search_memory, pySliceTo_eq_take] at hx
    exact List.mem_of_mem_take hx
  have hx2 : x ∈ searchResults s q := (mem_sortScoredDesc _ _).mp hx1
  rw [hres] at hx2
  obtain ⟨m, hm, heq⟩ := List.mem_filterMap.mp hx2
  by_cases hsc : 0 < searchScoreSpec q m.content
  · rw [if_pos hsc] at heq
    have hxval : (m, searchScoreSpec q m.content) = x := Option.some_inj.mp heq
    rw [← hxval]
    refine ⟨List.mem_of_mem_filter hm, ?_, hsc, rfl⟩
    simpa using (List.mem_filter.mp hm).2
  · rw [if_neg hsc] at heq
    exact absurd heq (by simp)

/-- A concrete one-message session used to instantiate the search claims. -/
def c7State : MemoryManager :=
  ⟨100, 100, [mkMessage "user" "hello python" "t1" none], [], ⟨"t0", 1, 0⟩⟩

/-- C7 witness: in the concrete session, the query `"Python"` returns the
stored message with score 1, which the theorem certifies as non-system,
positive, and equal to the specification formula. -/
theorem mm_C7_search_scoring_witness :
    (mkMessage "user" "hello python" "t1" none) ∈ c7State.messages ∧
    (mkMessage "user" "hello python" "t1" none).role ≠ "system" ∧
    (0 : Nat) < 1 ∧
    (1 : Nat) = searchScoreSpec "Python" "hello python" := by
  have h := (mm_C7_search_scoring c7State "Python").2 5
    (mkMessage "user" "hello python" "t1" none, 1) (by decide)
  exact ⟨h.1, h.2.1, h.2.2.1, h.2.2.2⟩

/-! ### C8 -/

/-- A concrete two-message session where both messages match `"python"`. -/
def c8State : MemoryManager :=
  ⟨100, 100,
    [mkMessage "user" "python python" "t1" none, mkMessage "user" "python" "t2" none],
    [], ⟨"t0", 2, 0⟩⟩

/-- C8 counterexample: with `topK = -1 ≤ 0` the returned sequence is not
empty — Python's `results[:-1]` keeps all but the last ranked result, so the
session with two matching messages returns one entry. -/
theorem mm_C8_counterexample :
    ((-1 : Int) ≤ 0) ∧
    search_memory c8State "python" (-1)
      = [(mkMessage "user" "python python" "t1" none, 2)] ∧
    search_memory c8State "python" (-1) ≠ [] := by
  refine ⟨by decide, by decide, by decide⟩

/-- C8 (amended): search output is sorted by non-increasing score, ties keep
the original chronological order (for each score value the returned entries
are an initial segment of the chronological candidate list); for
`topK ≥ 0` at most `topK` entries are returned, so `topK = 0` yields the
empty sequence; for `topK < 0` Python slice semantics apply — all but the
last `|topK|` ranked entries are returned, which need not be empty. -/
theorem mm_C8_amended_ranking :
    ∀ (s : MemoryManager) (q : String) (k : Int),
      (search_memory s q k).Pairwise (fun a b => b.2 ≤ a.2) ∧
      (∀ v : Nat, ∃ n, (search_memory s q k).filter (fun y => y.2 = v)
          = ((searchResults s q).filter (fun y => y.2 = v)).take n) ∧
      (0 ≤ k → (search_memory s q k).length ≤ k.toNat) ∧
      (k < 0 → search_memory s q k
          = (sortScoredDesc (searchResults s q)).take
              (((sortScoredDesc (searchResults s q)).length : Int) + k).toNat) := by
  intro s q k
  refine ⟨?_, ?_, ?_, ?_⟩
  · have hsub : List.Sublist (search_memory s q k) (sortScoredDesc (searchResults s q)) := by
      rw [search_memory, pySliceTo_eq_take]
      exact List.take_sublist _ _
    exact (pairwise_sortScoredDesc (searchResults s q)).sublist hsub
  · intro v
    rw [search_memory, pySliceTo_eq_take]
    obtain ⟨n, hn⟩ := filter_take_eq_take_filter (fun y => y.2 = v)
      (sortScoredDesc (searchResults s q))
      (if 0 ≤ k then k.toNat else ((sortScoredDesc (searchResults s q)).length : Int) + k |>.toNat)
    refine ⟨n, ?_⟩
    rw [hn, filter_sortScoredDesc]
  · intro hk
    rw [search_memory, pySliceTo, if_pos hk]
    exact List.length_take_le _ _
  · intro hk
    rw [search_memory, pySliceTo, if_neg (by omega)]

/-- C8 amended witness: the concrete session, at `topK = 1` and
`topK = -1`. -/
theorem mm_C8_amended_ranking_witness :
    (search_memory c8State "python" 1).length ≤ (1 : Int).toNat ∧
    search_memory c8State "python" (-1)
      = (sortScoredDesc (searchResults c8State "python")).take
          (((sortScoredDesc (searchResults c8State "python")).length : Int) + (-1)).toNat := by
  exact ⟨(mm_C8_amended_ranking c8State "python" 1).2.2.1 (by decide),
         (mm_C8_amended_ranking c8State "python" (-1)).2.2.2 (by decide)⟩
